import Mathlib

/-!
A verification development for the contrastive-lighting dataset-creation
utilities.  The Python sources are shallowly embedded: stateful use of
`random.Random` becomes explicit state passing over an abstract generator
state, fallible operations (exceptions) return `Option` or `Except`, and the
filesystem is a list of existing paths.
-/

set_option autoImplicit false

namespace CLD

/-!
## Random generator model

`random.Random(S)` is a deterministic state machine: its whole behaviour is a
function of the seed and of how many values have been drawn so far.  We model
the state as the pair (seed, draw counter) together with an output function
`mix` abstracting the Mersenne-Twister output; every theorem that does not
depend on the actual distribution quantifies over `mix`.
-/

structure Rng where
  mix : Nat → Nat → Nat
  seed : Nat
  counter : Nat

/-- The state of `random.Random(S)` freshly constructed from seed `S`. -/
def Rng.fresh (mix : Nat → Nat → Nat) (seed : Nat) : Rng :=
  { mix := mix, seed := seed, counter := 0 }

/-- Draw one raw value and advance the generator state. -/
def Rng.next (r : Rng) : Nat × Rng :=
  (r.mix r.seed r.counter, { r with counter := r.counter + 1 })

/-- `rng.randint(a, b)`: a value in `[a, b]`, both ends included. -/
def Rng.randint (r : Rng) (a b : Nat) : Nat × Rng :=
  let (o, r1) := r.next
  (a + o % (b - a + 1), r1)

/-- `rng.choice(l)`: an element of `l`; raises `IndexError` on an empty list
(modelled by `none`). -/
def Rng.choice {α : Type} (r : Rng) (l : List α) : Option (α × Rng) :=
  if h : 0 < l.length then
    let (o, r1) := r.next
    some (l.get ⟨o % l.length, Nat.mod_lt _ h⟩, r1)
  else
    none

/-- A concrete output function used to instantiate witnesses (an arbitrary
linear-congruential style mix; no theorem depends on its distribution). -/
def mixLCG (s c : Nat) : Nat :=
  (s * 1103515245 + c * 747796405 + 2891336453) % 4294967296

/-!
## SignatureVectorFactory  (src/data/signature_vector/signature_vector.py)

An attribute type is consumed through its classmethod
`sample_value(rng) -> value`; we embed a type of variant or invariant
attributes as the sampling function itself, over an arbitrary value type `V`
(the Python tuples are heterogeneous; all claims about the factory are
uniform in the values).
-/

def AttrClass (V : Type) : Type := Rng → V × Rng

/-- One pass of the constructor loop of `SignatureVectorFactory.__init__` over
the slot specification `(attr_type, is_free)*`, carrying the running slot
index `i`:
fixed slots are sampled immediately (`attr_type.sample_value(self.rng)`),
free slots record a `None` placeholder, their slot index and their class.
Returns (list_fixed_attributes, free_indices, free_classes, rng). -/
def initSlots {V : Type} :
    List (AttrClass V × Bool) → Rng → Nat →
    List (Option V) × List Nat × List (AttrClass V) × Rng
  | [], rng, _ => ([], [], [], rng)
  | (attr_type, is_free) :: rest, rng, i =>
    if is_free then
      let (fixedRest, idxRest, clsRest, rng1) := initSlots rest rng (i + 1)
      (none :: fixedRest, i :: idxRest, attr_type :: clsRest, rng1)
    else
      let (v, rng1) := attr_type rng
      let (fixedRest, idxRest, clsRest, rng2) := initSlots rest rng1 (i + 1)
      (some v :: fixedRest, idxRest, clsRest, rng2)

structure SignatureVectorFactory (V : Type) where
  rng : Rng
  list_fixed_variant_attributes : List (Option V)
  free_variant_indices : List Nat
  free_variant_classes : List (AttrClass V)
  list_fixed_invariant_attributes : List (Option V)
  free_invariant_indices : List Nat
  free_invariant_classes : List (AttrClass V)

/-- `SignatureVectorFactory.__init__`: the variant slots are processed first,
then the invariant slots, threading the single generator through both. -/
def mkSignatureVectorFactory {V : Type}
    (variant_attributes_and_freedom invariant_attributes_and_freedom :
      List (AttrClass V × Bool)) (rng : Rng) : SignatureVectorFactory V :=
  let (fv, iv, cv, rng1) := initSlots variant_attributes_and_freedom rng 0
  let (fi, ii, ci, rng2) := initSlots invariant_attributes_and_freedom rng1 0
  { rng := rng2
    list_fixed_variant_attributes := fv
    free_variant_indices := iv
    free_variant_classes := cv
    list_fixed_invariant_attributes := fi
    free_invariant_indices := ii
    free_invariant_classes := ci }

/-- The generic `SignatureVector(variant_attributes, invariant_attributes)`
as the factory builds it (entries are the Python tuple entries; a `none`
entry is a `None` left in place). -/
structure GenSignatureVector (V : Type) where
  variant_attributes : List (Option V)
  invariant_attributes : List (Option V)

/-- The re-sampling loop of `sample_signature_vector`:
`for i in free_indices: attrs[i] = free_classes[i].sample_value(self.rng)`.
Note the source indexes the *compacted* `free_classes` list with the original
slot index `i`; an out-of-range index raises `IndexError` (modelled `none`). -/
def resampleFree {V : Type} (classes : List (AttrClass V)) :
    List Nat → List (Option V) → Rng → Option (List (Option V) × Rng)
  | [], attrs, rng => some (attrs, rng)
  | i :: rest, attrs, rng =>
    match classes.get? i with
    | none => none
    | some cls =>
      let (v, rng1) := cls rng
      resampleFree classes rest (attrs.set i (some v)) rng1

/-- `SignatureVectorFactory.sample_signature_vector`: copies the fixed
values, re-samples the free variant slots then the free invariant slots, and
builds the vector from the two resulting tuples.  Returns the vector together
with the factory holding the advanced generator. -/
def sampleSignatureVector {V : Type} (f : SignatureVectorFactory V) :
    Option (GenSignatureVector V × SignatureVectorFactory V) :=
  match resampleFree f.free_variant_classes f.free_variant_indices
      f.list_fixed_variant_attributes f.rng with
  | none => none
  | some (variant_attributes, rng1) =>
    match resampleFree f.free_invariant_classes f.free_invariant_indices
        f.list_fixed_invariant_attributes rng1 with
    | none => none
    | some (invariant_attributes, rng2) =>
      some ({ variant_attributes := variant_attributes
              invariant_attributes := invariant_attributes },
            { f with rng := rng2 })

/-- The sequence of `K` successive `sample_signature_vector()` results; a
raised exception is recorded as `none` (and leaves the factory unchanged, so
every later call fails identically, as a Python caller retrying would see). -/
def sampleSeq {V : Type} (f : SignatureVectorFactory V) :
    Nat → List (Option (GenSignatureVector V))
  | 0 => []
  | k + 1 =>
    match sampleSignatureVector f with
    | none => none :: sampleSeq f k
    | some (sv, f1) => some sv :: sampleSeq f1 k

/-!
## ImageImageSignatureVector  (src/data/image_image_task.py)

The image-image task always builds its vectors with
`variant_attributes = (HDRIName(name, z_rotation_offset_from_camera),)` and
`invariant_attributes = (SceneID(scene_id), CameraSeed(seed))`, so the two
positional tuples are embedded as a record with those three fields.
The rotation is always produced by `randint(0, 360)` (an `int`, although the
dataclass annotates the field as `float`), hence `Int` here, matching how
Python formats it into the path.
-/

structure HDRIName where
  name : String
  z_rotation_offset_from_camera : Int
  deriving DecidableEq, Repr

structure SceneID where
  scene_id : String
  deriving DecidableEq, Repr

structure CameraSeed where
  seed : Nat
  deriving DecidableEq, Repr

structure ImageImageSignatureVector where
  variant_hdri : HDRIName
  invariant_scene : SceneID
  invariant_camera : CameraSeed
  deriving DecidableEq, Repr

/-- Does `pat` start the character list `l`? -/
def startsWithChars : List Char → List Char → Bool
  | [], _ => true
  | _ :: _, [] => false
  | p :: ps, c :: cs => p == c && startsWithChars ps cs

/-- The scan of Python's `str.replace(pat, rep)` (same semantics as Lean's
`String.replace`, re-implemented by structural recursion so that concrete
witnesses evaluate under kernel reduction): at each position, if `pat`
matches, emit `rep` and skip the match, else keep the character.  Fuel is the
length of the remaining text (sufficient: each step consumes at least one
character). -/
def replaceChars (pat rep : List Char) : Nat → List Char → List Char
  | 0, _ => []
  | _ + 1, [] => []
  | fuel + 1, c :: cs =>
    if startsWithChars pat (c :: cs) then
      rep ++ replaceChars pat rep fuel (cs.drop (pat.length - 1))
    else
      c :: replaceChars pat rep fuel cs

/-- `s.replace(pat, rep)` for a non-empty pattern. -/
def pyReplace (s pat rep : String) : String :=
  ⟨replaceChars pat.data rep.data s.data.length s.data⟩

def ImageImageSignatureVector.get_hdri_name (sv : ImageImageSignatureVector) :
    String :=
  sv.variant_hdri.name

def ImageImageSignatureVector.get_camera_seed (sv : ImageImageSignatureVector) :
    Nat :=
  sv.invariant_camera.seed

/-- `self.invariant_attributes[0].scene_id.replace('.blend', '')`: Python's
`str.replace` removes every occurrence of the pattern, not only a suffix. -/
def ImageImageSignatureVector.get_scene_id (sv : ImageImageSignatureVector) :
    String :=
  pyReplace sv.invariant_scene.scene_id ".blend" ""

def ImageImageSignatureVector.get_hdri_rotation
    (sv : ImageImageSignatureVector) : Int :=
  sv.variant_hdri.z_rotation_offset_from_camera

/-- The output path built identically by `ImageImageSignatureVector.to_path`
and by the local helper `compute_path` inside
`get_batch_of_images_given_signature_vectors`:
`os.path.join(DATA_PATH, 'renders', hdri_name, f"hdri-offset_{rot}_camera_{seed}_{scene_id}.png")`,
with `os.path.join` on relative components modelled as `/`-concatenation and
`DATA_PATH` abstracted as `dataRoot`. -/
def computePath (dataRoot : String) (sv : ImageImageSignatureVector) : String :=
  dataRoot ++ "/renders/" ++ sv.get_hdri_name ++
    "/hdri-offset_" ++ toString sv.get_hdri_rotation ++
    "_camera_" ++ toString sv.get_camera_seed ++
    "_" ++ sv.get_scene_id ++ ".png"

/-- The path format in the words of the spec: the scene id appears "with any
'.blend' suffix stripped".  This definition follows the spec, not the source;
it exists only to be compared against `computePath`. -/
def specFormPath (dataRoot : String) (sv : ImageImageSignatureVector) : String :=
  let sid := sv.invariant_scene.scene_id
  let scene : String :=
    if startsWithChars ".blend".data.reverse sid.data.reverse then
      ⟨sid.data.take (sid.data.length - 6)⟩
    else
      sid
  dataRoot ++ "/renders/" ++ sv.variant_hdri.name ++
    "/hdri-offset_" ++ toString sv.variant_hdri.z_rotation_offset_from_camera ++
    "_camera_" ++ toString sv.invariant_camera.seed ++
    "_" ++ scene ++ ".png"

/-!
## ImageImageDataLoader.get_batch_of_signature_vectors

`rng.sample(population, k)` draws `k` elements at distinct positions without
replacement and raises `ValueError` when `k` exceeds the population size
(modelled `none`).  The concrete position-selection of CPython is abstracted
into draws of the generic generator; every claim depends only on the
without-replacement property.
-/

def sampleK {α : Type} : List α → Rng → Nat → Option (List α × Rng)
  | _, rng, 0 => some ([], rng)
  | pop, rng, k + 1 =>
    if h : 0 < pop.length then
      let (o, rng1) := rng.next
      let j : Fin pop.length := ⟨o % pop.length, Nat.mod_lt _ h⟩
      match sampleK (pop.eraseIdx j) rng1 k with
      | none => none
      | some (rest, rng2) => some (pop.get j :: rest, rng2)
    else
      none

/-- `[rng.randint(a, b) for _ in range(n)]`. -/
def randints (rng : Rng) (n a b : Nat) : List Nat × Rng :=
  match n with
  | 0 => ([], rng)
  | k + 1 =>
    let (v, rng1) := rng.randint a b
    let (rest, rng2) := randints rng1 k a b
    (v :: rest, rng2)

/-- The body of the `for i in range(batch_size)` loop of
`ImageImageDataLoader.get_batch_of_signature_vectors`: build the `i`-th
left/right pair from the batch-level draws. -/
def buildPair (selection_of_hdris : List String) (rotations : List Nat)
    (selected_scene_left selected_scene_right : String)
    (camera_seed_left camera_seed_right : Nat) (i : Nat) :
    ImageImageSignatureVector × ImageImageSignatureVector :=
  let selected_hdri := selection_of_hdris.getD i ""
  let selected_rotation := rotations.getD i 0
  let hdri_attribute : HDRIName :=
    { name := selected_hdri
      z_rotation_offset_from_camera := (selected_rotation : Int) }
  let signature_vector_left : ImageImageSignatureVector :=
    { variant_hdri := hdri_attribute
      invariant_scene := { scene_id := selected_scene_left }
      invariant_camera := { seed := camera_seed_left } }
  let signature_vector_right : ImageImageSignatureVector :=
    { variant_hdri := hdri_attribute
      invariant_scene := { scene_id := selected_scene_right }
      invariant_camera := { seed := camera_seed_right } }
  (signature_vector_left, signature_vector_right)

/-- `ImageImageDataLoader.get_batch_of_signature_vectors`: the HDRI names are
sampled without replacement and the per-pair rotations are drawn per index,
while one left scene, one right scene, one left camera seed and one right
camera seed are drawn once for the whole batch.  `available_scenes` and
`available_hdris` come from directory listings (parameters here).  Raising
(`ValueError` from `sample`, `IndexError` from `choice` on an empty scene
list) is `none`. -/
def get_batch_of_signature_vectors (rng : Rng)
    (available_scenes available_hdris : List String) (batch_size : Nat) :
    Option (List (ImageImageSignatureVector × ImageImageSignatureVector) × Rng) :=
  match sampleK available_hdris rng batch_size with
  | none => none
  | some (selection_of_hdris, rng1) =>
    let (rotations, rng2) := randints rng1 batch_size 0 360
    match rng2.choice available_scenes with
    | none => none
    | some (selected_scene_left, rng3) =>
      match rng3.choice available_scenes with
      | none => none
      | some (selected_scene_right, rng4) =>
        let (camera_seed_left, rng5) := rng4.randint 0 1000000
        let (camera_seed_right, rng6) := rng5.randint 0 1000000
        let batch := (List.range batch_size).map
          (buildPair selection_of_hdris rotations selected_scene_left
            selected_scene_right camera_seed_left camera_seed_right)
        some (batch, rng6)

/-!
## ConcurrentTasksHelper  (src/concurrent_tasks_helper.py)

`hashlib.sha256(task_id.encode()).hexdigest()` interpreted as an integer is a
fixed total function of the task string; we abstract it as a parameter
`hash : String → Nat` (no claim depends on the actual digest values, only on
their stability).  The integer cursor `self.i` into the fixed
`list_of_all_tasks` is represented by the remaining suffix
`list_of_all_tasks.drop i`; `completed_tasks` is a list used as a set.
-/

def in_shard (hash : String → Nat) (task_id : String)
    (shard_idx shard_cnt : Nat) : Bool :=
  if shard_cnt ≤ 1 then true
  else hash task_id % shard_cnt == shard_idx

structure ConcurrentTasksHelper where
  my_worker_id : Nat
  total_workers : Nat
  remaining_tasks : List String
  completed_tasks : List String

/-- The `while self.i < len(...)` loop of `get_next_task`, recursing over the
remaining suffix of the task list: advance the cursor past completed and
out-of-shard tasks, returning the first task of this worker's shard together
with the remaining tasks after it, or `None` at exhaustion. -/
def get_next_task_aux (hash : String → Nat) (wid cnt : Nat)
    (completed : List String) : List String → Option String × List String
  | [] => (none, [])
  | task :: rest =>
    if task ∈ completed then
      get_next_task_aux hash wid cnt completed rest
    else if in_shard hash task wid cnt then
      (some task, rest)
    else
      get_next_task_aux hash wid cnt completed rest

/-- `ConcurrentTasksHelper.get_next_task`. -/
def get_next_task (hash : String → Nat) (st : ConcurrentTasksHelper) :
    Option String × ConcurrentTasksHelper :=
  let (res, rest) := get_next_task_aux hash st.my_worker_id st.total_workers
    st.completed_tasks st.remaining_tasks
  (res, { st with remaining_tasks := rest })

/-- The filter a worker's `get_next_task` stream realises. -/
def shardKeeps (hash : String → Nat) (completed : List String)
    (wid cnt : Nat) (task : String) : Bool :=
  decide (task ∉ completed) && in_shard hash task wid cnt

/-!
## ImageImageDataLoader.get_batch_of_images_given_signature_vectors

The filesystem is the list of paths existing when the call starts.  The two
parallel dicts `all_to_render_by_scene` / `all_output_paths_by_scene`, which
the source always updates in lockstep under the same key, are embedded as one
insertion-ordered association list from scene id to the list of
(signature vector, output path) entries.  Render-backend invocations are not
performed; the list of (signature vector, output path) arguments that would
be handed to `do_render` / `do_render_batch_for_scene` is returned instead,
flattened in invocation order.
-/

/-- `sorted(...)` on the scene keys: a stable ascending string sort
(insertion sort here, executable under kernel reduction; the claims do not
depend on the sorting algorithm, only on which keys are present). -/
def insertSorted (s : String) : List String → List String
  | [] => [s]
  | t :: rest => if s ≤ t then s :: t :: rest else t :: insertSorted s rest

def sortStrings (l : List String) : List String :=
  l.foldr insertSorted []

/-- `dict.setdefault(scene_id, []).append(item)` on the insertion-ordered
association list. -/
def addToGroup (groups : List (String × List (ImageImageSignatureVector × String)))
    (scene : String) (item : ImageImageSignatureVector × String) :
    List (String × List (ImageImageSignatureVector × String)) :=
  match groups with
  | [] => [(scene, [item])]
  | (k, items) :: rest =>
    if k = scene then (k, items ++ [item]) :: rest
    else (k, items) :: addToGroup rest scene item

/-- The first loop of `get_batch_of_images_given_signature_vectors`: collect
`left_paths` and `right_paths` for every pair, and group each signature
vector whose path does not yet exist under its scene id (left member first,
right member second, pairs in order). -/
def scanPairs (dataRoot : String) (fs : List String) :
    List (ImageImageSignatureVector × ImageImageSignatureVector) →
    List (String × List (ImageImageSignatureVector × String)) →
    List String × List String ×
      List (String × List (ImageImageSignatureVector × String))
  | [], groups => ([], [], groups)
  | (sv_left, sv_right) :: rest, groups =>
    let left_path := computePath dataRoot sv_left
    let right_path := computePath dataRoot sv_right
    let groups1 :=
      if left_path ∈ fs then groups
      else addToGroup groups sv_left.get_scene_id (sv_left, left_path)
    let groups2 :=
      if right_path ∈ fs then groups1
      else addToGroup groups1 sv_right.get_scene_id (sv_right, right_path)
    let res := scanPairs dataRoot fs rest groups2
    (left_path :: res.1, right_path :: res.2.1, res.2.2)

/-- `while task := helper.get_next_task():` — the walrus loop stops at `None`
and also at a falsy task id (the empty string).  Collects the processed task
ids in order.  Fuel-indexed structural recursion; `remaining.length` fuel is
always sufficient because every yielded task strictly shortens the remaining
suffix (`run_task_loop_eq` below). -/
def run_task_loop_fuel (hash : String → Nat) (wid cnt : Nat)
    (completed : List String) : Nat → List String → List String
  | 0, _ => []
  | fuel + 1, rem =>
    match get_next_task_aux hash wid cnt completed rem with
    | (none, _) => []
    | (some task, rest) =>
      if task = "" then []
      else task :: run_task_loop_fuel hash wid cnt completed fuel rest

def run_task_loop (hash : String → Nat) (wid cnt : Nat)
    (completed : List String) (tasks : List String) : List String :=
  run_task_loop_fuel hash wid cnt completed tasks.length tasks

/-- Every task a worker's repeated `get_next_task()` calls yield, in order
(no truthiness stop: this is the raw iterator of the helper, used by the
sharding claims).  Fuel-indexed like `run_task_loop_fuel`. -/
def all_yields_fuel (hash : String → Nat) (wid cnt : Nat)
    (completed : List String) : Nat → List String → List String
  | 0, _ => []
  | fuel + 1, rem =>
    match get_next_task_aux hash wid cnt completed rem with
    | (none, _) => []
    | (some task, rest) =>
      task :: all_yields_fuel hash wid cnt completed fuel rest

def all_yields (hash : String → Nat) (wid cnt : Nat)
    (completed : List String) (tasks : List String) : List String :=
  all_yields_fuel hash wid cnt completed tasks.length tasks

/-- `get_batch_of_images_given_signature_vectors`.  Returns the final list of
`(left path, right path)` tuples together with the flattened list of
(signature vector, output path) arguments of the render-backend invocations
the call performs, or the `ValueError` for an unknown task method. -/
def get_batch_of_images_given_signature_vectors (hash : String → Nat)
    (dataRoot : String) (fs : List String)
    (signature_vectors : List (ImageImageSignatureVector × ImageImageSignatureVector))
    (shard_index shard_count : Nat) (task_method : String) :
    Except String (List (String × String) ×
      List (ImageImageSignatureVector × String)) :=
  let scanned := scanPairs dataRoot fs signature_vectors []
  let left_paths := scanned.1
  let right_paths := scanned.2.1
  let groups := scanned.2.2
  if task_method = "split_by_scene" then
    let scene_ids := sortStrings (groups.map (·.1))
    let processed := run_task_loop hash shard_index shard_count [] scene_ids
    let renders := processed.flatMap (fun scene_id => (groups.lookup scene_id).getD [])
    .ok (left_paths.zip right_paths, renders)
  else if task_method = "individual" then
    let all_items := groups.flatMap (·.2)
    let all_output_paths := all_items.map (·.2)
    let already_completed_tasks := all_output_paths.filter (fun p => decide (p ∈ fs))
    let processed := run_task_loop hash shard_index shard_count
      already_completed_tasks all_output_paths
    let renders := processed.filterMap (fun output_path =>
      (all_items.get? (all_output_paths.indexOf output_path)).map
        (fun item => (item.1, output_path)))
    .ok (left_paths.zip right_paths, renders)
  else
    .error ("Unknown task method " ++ task_method)

/-- The render-backend invocation arguments a call performs (empty on the
unknown-method error path). -/
def renderInvocations (hash : String → Nat) (dataRoot : String)
    (fs : List String)
    (signature_vectors : List (ImageImageSignatureVector × ImageImageSignatureVector))
    (shard_index shard_count : Nat) (task_method : String) :
    List (ImageImageSignatureVector × String) :=
  match get_batch_of_images_given_signature_vectors hash dataRoot fs
      signature_vectors shard_index shard_count task_method with
  | .ok out => out.2
  | .error _ => []

/-!
## temporary_payload_file  (src/data/temp_payload.py)

The context manager writes the payload to a fresh temp file, yields its path
to the body (in `do_render` the body spawns the Blender subprocess), and in
the `finally` block removes the file; a `FileNotFoundError` from the removal
is caught and printed as a warning.  The body is an arbitrary function of the
yielded path and of the filesystem as it stands after the file was created;
it returns its value or the exception it raises, together with the filesystem
it leaves behind (an external process — or a concurrent cleanup — may have
deleted the file meanwhile).
-/

structure TempPayloadOutcome (α : Type) where
  result : Except String α
  fs : List String
  warnings : List String

/-- The filesystem with the freshly created payload file (`tempfile.mkstemp`
creates the file before the body runs). -/
def fsWithPayload (path : String) (fs : List String) : List String :=
  path :: fs

/-- `os.remove(path)` on the filesystem-as-set model. -/
def fsRemove (path : String) (fs : List String) : List String :=
  fs.filter (fun q => q != path)

def tempPayloadWarning (path : String) : String :=
  "Warning: Temporary payload file " ++ path ++ " was already removed."

/-- `temporary_payload_file`: create the file, run the body on the yielded
path, then always attempt the removal; removal of an already-removed file
logs a warning instead of raising, and the body's result (value or raised
exception) is what the caller sees. -/
def temporary_payload_file {α : Type} (fs : List String) (path : String)
    (body : String → List String → Except String α × List String) :
    TempPayloadOutcome α :=
  let fs1 := fsWithPayload path fs
  let res := (body path fs1).1
  let fs2 := (body path fs1).2
  if path ∈ fs2 then
    { result := res, fs := fsRemove path fs2, warnings := [] }
  else
    { result := res, fs := fs2, warnings := [tempPayloadWarning path] }

/-!
## EnumAttribute._weighted_sample  (src/data/signature_vector/attribute.py)

`members = list(cls)` enumerates the enum; the weights dict (typed
`Dict[E, float]`, so its keys are members of the enum and, being dict keys,
pairwise distinct) is an association list; `None` is the no-weights default.
Weights are modelled as rationals: every comparison the code performs
(`w < 0`, `w == 0`, the cumulative bisection) is exact on the values the
claims involve.  The uniform draw `random()` of the underlying generator is
the parameter `u ∈ [0, 1)`; `rng.choice` picks index `⌊u·n⌋` and
`rng.choices(members, weights, k=1)` computes the cumulative weights and
bisects `u · total` into them exactly as CPython's `random.choices` does
(insertion point capped at `len - 1`). -/

def alignedWeightsOf {M : Type} [DecidableEq M] (members : List M)
    (ws : List (M × ℚ)) : List ℚ :=
  members.map (fun m => ((ws.lookup m).getD 1))

/-- Running cumulative sums, as `itertools.accumulate` produces them. -/
def cumulativeSums : List ℚ → List ℚ
  | [] => []
  | w :: rest => w :: (cumulativeSums rest).map (fun c => w + c)

/-- `bisect.bisect_right` on a sorted list: the number of elements `≤ x`. -/
def bisectCount (x : ℚ) : List ℚ → Nat
  | [] => 0
  | c :: rest => if c ≤ x then 1 + bisectCount x rest else bisectCount x rest

def weighted_sample {M : Type} [DecidableEq M] (members : List M)
    (weights : Option (List (M × ℚ))) (u : ℚ) : Except String M :=
  if members.isEmpty then
    .error "Enum has no members to sample."
  else
    let uniform : Except String M :=
      match members.get? (Int.toNat ⌊u * (members.length : ℚ)⌋) with
      | some m => .ok m
      | none => .error "IndexError"
    match weights with
    | none => uniform
    | some ws =>
      if ws.isEmpty then uniform
      else
        let aligned_weights := alignedWeightsOf members ws
        if aligned_weights.any (fun w => decide (w < 0)) then
          .error "Weight must be non-negative."
        else if aligned_weights.all (fun w => decide (w = 0)) then
          .error "All sampling weights are zero."
        else
          let cum_weights := cumulativeSums aligned_weights
          let total := aligned_weights.sum
          let idx := min (bisectCount (u * total) cum_weights) (members.length - 1)
          match members.get? idx with
          | some m => .ok m
          | none => .error "IndexError"

/-- The three-member enum `{A, B, C}` of the weighted-sampling scenario. -/
inductive ABC where
  | A
  | B
  | C
  deriving DecidableEq, Repr

/-- `list(ABC)`: the members in declaration order. -/
def ABC.members : List ABC := [ABC.A, ABC.B, ABC.C]

/-!
## Concrete instances used by witnesses
-/

/-- `CameraSeed.sample_value`: `rng.randint(0, int(1e6))`, as a concrete
attribute class over `Nat` values. -/
def cameraSeedSampler : AttrClass Nat := fun rng => rng.randint 0 1000000

/-- Python evaluates the default argument `rng: random.Random = random.Random(0)`
once, at function-definition time; every `SignatureVectorFactory()` built
without an explicit generator therefore shares that single module-level
`Random(0)` object, whose state the construction mutates.  This models one
default-argument construction: it consumes the shared generator and hands its
advanced state to whoever constructs with the default next. -/
def mkFactoryWithDefault {V : Type}
    (variant_attributes_and_freedom invariant_attributes_and_freedom :
      List (AttrClass V × Bool)) (sharedDefault : Rng) :
    SignatureVectorFactory V × Rng :=
  let f := mkSignatureVectorFactory variant_attributes_and_freedom
    invariant_attributes_and_freedom sharedDefault
  (f, f.rng)

/-!
## Theorems

Helper lemmas first, then one theorem per claim (with witnesses and
counterexamples where required).
-/

theorem get_next_task_aux_spec (hash : String → Nat) (wid cnt : Nat)
    (completed : List String) (rem : List String) :
    (get_next_task_aux hash wid cnt completed rem).1 =
      (rem.filter (shardKeeps hash completed wid cnt)).head?
    ∧ (get_next_task_aux hash wid cnt completed rem).2.filter
        (shardKeeps hash completed wid cnt) =
      (rem.filter (shardKeeps hash completed wid cnt)).tail
    ∧ (get_next_task_aux hash wid cnt completed rem).2.length ≤ rem.length
    ∧ ((get_next_task_aux hash wid cnt completed rem).1.isSome →
        (get_next_task_aux hash wid cnt completed rem).2.length < rem.length) := by
  induction rem with
  | nil => simp [get_next_task_aux]
  | cons task rest ih =>
    by_cases hc : task ∈ completed
    · have hk : shardKeeps hash completed wid cnt task = false := by
        simp [shardKeeps, hc]
      simp only [get_next_task_aux, if_pos hc, List.filter_cons, hk,
        Bool.false_eq_true, if_false, List.length_cons]
      exact ⟨ih.1, ih.2.1, Nat.le_succ_of_le ih.2.2.1,
        fun hs => Nat.lt_succ_of_lt (ih.2.2.2 hs)⟩
    · by_cases hsh : in_shard hash task wid cnt
      · have hk : shardKeeps hash completed wid cnt task = true := by
          simp [shardKeeps, hc, hsh]
        simp only [get_next_task_aux, if_neg hc, hsh, if_true,
          List.filter_cons, hk, List.length_cons]
        exact ⟨rfl, rfl, Nat.le_succ _, fun _ => Nat.lt_succ_self _⟩
      · have hk : shardKeeps hash completed wid cnt task = false := by
          simp [shardKeeps, hc, hsh]
        simp only [get_next_task_aux, if_neg hc, hsh, Bool.false_eq_true,
          if_false, List.filter_cons, hk, List.length_cons]
        exact ⟨ih.1, ih.2.1, Nat.le_succ_of_le ih.2.2.1,
          fun hs => Nat.lt_succ_of_lt (ih.2.2.2 hs)⟩

theorem all_yields_fuel_eq (hash : String → Nat) (wid cnt : Nat)
    (completed : List String) :
    ∀ (fuel : Nat) (rem : List String), rem.length ≤ fuel →
      all_yields_fuel hash wid cnt completed fuel rem =
        rem.filter (shardKeeps hash completed wid cnt) := by
  intro fuel
  induction fuel with
  | zero =>
    intro rem hlen
    have : rem = [] := List.length_eq_zero.mp (Nat.le_zero.mp hlen)
    subst this
    simp [all_yields_fuel]
  | succ k ih =>
    intro rem hlen
    obtain ⟨h1, h2, _, h4⟩ := get_next_task_aux_spec hash wid cnt completed rem
    match hstep : get_next_task_aux hash wid cnt completed rem with
    | (none, rest) =>
      rw [hstep] at h1
      simp only [all_yields_fuel, hstep]
      cases hf : rem.filter (shardKeeps hash completed wid cnt) with
      | nil => rfl
      | cons a l => rw [hf] at h1; simp at h1
    | (some task, rest) =>
      rw [hstep] at h1 h2 h4
      have hlt : rest.length < rem.length := by simpa using h4 (by simp)
      cases hf : rem.filter (shardKeeps hash completed wid cnt) with
      | nil => rw [hf] at h1; simp at h1
      | cons a l =>
        rw [hf] at h1 h2
        simp only [List.head?_cons, Option.some.injEq] at h1
        simp only [List.tail_cons] at h2
        simp only [all_yields_fuel, hstep, h1]
        exact congrArg (a :: ·) ((ih rest (by omega)).trans h2)

theorem all_yields_eq (hash : String → Nat) (wid cnt : Nat)
    (completed : List String) (tasks : List String) :
    all_yields hash wid cnt completed tasks =
      tasks.filter (shardKeeps hash completed wid cnt) :=
  all_yields_fuel_eq hash wid cnt completed tasks.length tasks (Nat.le_refl _)

theorem run_task_loop_fuel_eq (hash : String → Nat) (wid cnt : Nat)
    (completed : List String) :
    ∀ (fuel : Nat) (rem : List String), rem.length ≤ fuel →
      run_task_loop_fuel hash wid cnt completed fuel rem =
        (rem.filter (shardKeeps hash completed wid cnt)).takeWhile
          (fun t => decide (t ≠ "")) := by
  intro fuel
  induction fuel with
  | zero =>
    intro rem hlen
    have : rem = [] := List.length_eq_zero.mp (Nat.le_zero.mp hlen)
    subst this
    simp [run_task_loop_fuel]
  | succ k ih =>
    intro rem hlen
    obtain ⟨h1, h2, _, h4⟩ := get_next_task_aux_spec hash wid cnt completed rem
    match hstep : get_next_task_aux hash wid cnt completed rem with
    | (none, rest) =>
      rw [hstep] at h1
      simp only [run_task_loop_fuel, hstep]
      cases hf : rem.filter (shardKeeps hash completed wid cnt) with
      | nil => rfl
      | cons a l => rw [hf] at h1; simp at h1
    | (some task, rest) =>
      rw [hstep] at h1 h2 h4
      have hlt : rest.length < rem.length := by simpa using h4 (by simp)
      cases hf : rem.filter (shardKeeps hash completed wid cnt) with
      | nil => rw [hf] at h1; simp at h1
      | cons a l =>
        rw [hf] at h1 h2
        simp only [List.head?_cons, Option.some.injEq] at h1
        simp only [List.tail_cons] at h2
        by_cases he : task = ""
        · subst he
          simp only [run_task_loop_fuel, hstep, if_pos rfl]
          rw [List.takeWhile_cons, ← h1]
          simp
        · simp only [run_task_loop_fuel, hstep, if_neg he]
          rw [List.takeWhile_cons, ← h1]
          rw [if_pos (by simpa using he)]
          exact congrArg (task :: ·)
            ((ih rest (by omega)).trans (congrArg _ h2))

theorem run_task_loop_eq (hash : String → Nat) (wid cnt : Nat)
    (completed : List String) (tasks : List String) :
    run_task_loop hash wid cnt completed tasks =
      (tasks.filter (shardKeeps hash completed wid cnt)).takeWhile
        (fun t => decide (t ≠ "")) :=
  run_task_loop_fuel_eq hash wid cnt completed tasks.length tasks (Nat.le_refl _)

theorem sum_single_index (x : Nat) (P : Nat → Bool) :
    ∀ (C w0 : Nat), w0 < C → (∀ w, w < C → (P w = true ↔ w = w0)) →
      (((List.range C).map (fun w => if P w then x else 0)).sum = x) := by
  intro C
  induction C with
  | zero => intro w0 hw0 _; omega
  | succ k ih =>
    intro w0 hw0 hP
    rw [List.range_succ, List.map_append, List.sum_append]
    by_cases hk : w0 = k
    · have hzero : ((List.range k).map (fun w => if P w then x else 0)).sum = 0 := by
        apply List.sum_eq_zero
        intro y hy
        obtain ⟨w, hw, hwy⟩ := List.mem_map.mp hy
        have hwlt : w < k := List.mem_range.mp hw
        have hPw : P w = false := by
          cases hPw : P w with
          | false => rfl
          | true => exact absurd ((hP w (by omega)).mp hPw) (by omega)
        rw [← hwy, hPw]
        simp
      have hPk : P k = true := (hP k (by omega)).mpr hk.symm
      rw [hzero]
      simp [hPk]
    · have hlt : w0 < k := by omega
      have hPk : P k = false := by
        cases hPk : P k with
        | false => rfl
        | true => exact absurd ((hP k (by omega)).mp hPk) (by omega)
      rw [ih w0 hlt (fun w hw => hP w (by omega))]
      simp [hPk]

/-- C3: for any ordered task list `T`, shard count `C ≥ 1` and an empty
already-completed set, each task of `T` is yielded by exactly one of the
helpers with worker ids `0..C-1` (the hash-based `in_shard` predicate puts
each task id in exactly one shard), the concatenation over the shards of the
yielded tasks is a permutation of `T` (no duplicates, no omissions), and with
`C = 1` the single worker yields every task. -/
theorem sharded_workers_partition_tasks (hash : String → Nat)
    (T : List String) (C : Nat) (hC : 1 ≤ C) :
    (∀ t ∈ T, ∃! w, w < C ∧ t ∈ all_yields hash w C [] T)
    ∧ ((List.range C).flatMap (fun w => all_yields hash w C [] T)).Perm T
    ∧ (C = 1 → all_yields hash 0 1 [] T = T) := by
  have hkeeps : ∀ (w : Nat) (t : String),
      shardKeeps hash [] w C t = in_shard hash t w C := by
    intro w t
    simp [shardKeeps]
  have hmem : ∀ (w : Nat) (t : String),
      t ∈ all_yields hash w C [] T ↔ t ∈ T ∧ in_shard hash t w C = true := by
    intro w t
    rw [all_yields_eq, List.mem_filter, hkeeps]
  have hshard : ∀ (t : String) (w : Nat), w < C →
      (in_shard hash t w C = true ↔ w = hash t % C) := by
    intro t w hw
    by_cases h1 : C ≤ 1
    · have : C = 1 := by omega
      subst this
      simp [in_shard, Nat.mod_one]
      omega
    · simp only [in_shard, if_neg h1, beq_iff_eq]
      omega
  refine ⟨?_, ?_, ?_⟩
  · intro t ht
    have hw0 : hash t % C < C := Nat.mod_lt _ (by omega)
    refine ⟨hash t % C, ⟨hw0, (hmem _ t).mpr ⟨ht, (hshard t _ hw0).mpr rfl⟩⟩, ?_⟩
    intro w ⟨hw, hmemw⟩
    exact (hshard t w hw).mp ((hmem w t).mp hmemw).2
  · rw [List.perm_iff_count]
    intro a
    rw [List.count_flatMap]
    have hterm : ∀ w, (List.count a ∘ fun w => all_yields hash w C [] T) w =
        if in_shard hash a w C then List.count a T else 0 := by
      intro w
      simp only [Function.comp_apply, all_yields_eq]
      by_cases hsh : in_shard hash a w C = true
      · rw [if_pos hsh]
        exact List.count_filter (by rw [hkeeps, hsh])
      · rw [if_neg hsh]
        refine List.count_eq_zero.mpr (fun hmemf => ?_)
        have := (List.mem_filter.mp hmemf).2
        rw [hkeeps] at this
        exact hsh this
    rw [List.map_congr_left (fun w _ => hterm w)]
    have hw0 : hash a % C < C := Nat.mod_lt _ (by omega)
    exact sum_single_index (List.count a T) (fun w => in_shard hash a w C)
      C (hash a % C) hw0 (fun w hw => by rw [hshard a w hw])
  · intro h1
    subst h1
    rw [all_yields_eq]
    exact List.filter_eq_self.mpr (fun t _ => by simp [shardKeeps, in_shard])

/-- C3 witness: a concrete instantiation of the partition theorem. -/
theorem sharded_workers_partition_tasks_witness :
    ((List.range 2).flatMap
      (fun w => all_yields String.length w 2 [] ["a", "bb", "ccc"])).Perm
      ["a", "bb", "ccc"] :=
  (sharded_workers_partition_tasks String.length ["a", "bb", "ccc"] 2
    (by decide)).2.1

/-- C1: two `SignatureVectorFactory` instances, each constructed with its own
`random.Random(S)` generator and the same slot specification, produce
identical `K`-sequences of signature vectors over any `K` successive
`sample_signature_vector()` calls.  With the generator a pure state machine,
both constructions and their sampling streams coincide definitionally. -/
theorem factory_same_seed_same_sequences {V : Type}
    (variant_spec invariant_spec : List (AttrClass V × Bool))
    (mix : Nat → Nat → Nat) (S K : Nat) :
    sampleSeq (mkSignatureVectorFactory variant_spec invariant_spec
      (Rng.fresh mix S)) K =
    sampleSeq (mkSignatureVectorFactory variant_spec invariant_spec
      (Rng.fresh mix S)) K := rfl

theorem mkFactory_single_fixed {V : Type} (c : AttrClass V) (rng : Rng) :
    mkSignatureVectorFactory [(c, false)] [] rng =
      { rng := (c rng).2
        list_fixed_variant_attributes := [some (c rng).1]
        free_variant_indices := []
        free_variant_classes := []
        list_fixed_invariant_attributes := []
        free_invariant_indices := []
        free_invariant_classes := [] } := by
  rcases h : c rng with ⟨v, r1⟩
  simp [mkSignatureVectorFactory, initSlots, h]

/-- C6 (divergence witness): with the variant specification
`((A, is_free=False), (B, is_free=True))` — a fixed slot before a free slot —
`sample_signature_vector` evaluates `free_variant_classes[1]` on the
one-element compacted class list and raises `IndexError` instead of
re-sampling the free slot with its recorded class. -/
theorem sample_free_slot_after_fixed_slot_raises :
    sampleSignatureVector (mkSignatureVectorFactory
      [(cameraSeedSampler, false), (cameraSeedSampler, true)] []
      (Rng.fresh mixLCG 0)) = none := rfl

/-- C10: the `rng` parameter of `SignatureVectorFactory.__init__` defaults to
one module-level `random.Random(0)` shared by every factory constructed
without an explicit generator, so for a specification with a fixed slot,
constructing a first default factory and then a second gives the second
different fixed values (and a different sample sequence) than constructing it
alone in a fresh process — whenever the attribute sample after one
construction differs from the sample of the fresh generator, which the
hypothesis states. -/
theorem default_rng_shared_across_factories {V : Type} (c : AttrClass V)
    (mix : Nat → Nat → Nat)
    (hdiff : (c ((c (Rng.fresh mix 0)).2)).1 ≠ (c (Rng.fresh mix 0)).1) :
    (mkSignatureVectorFactory [(c, false)] []
        (mkFactoryWithDefault [(c, false)] [] (Rng.fresh mix 0)).2).list_fixed_variant_attributes ≠
      (mkSignatureVectorFactory [(c, false)] []
        (Rng.fresh mix 0)).list_fixed_variant_attributes
    ∧ sampleSeq (mkSignatureVectorFactory [(c, false)] []
        (mkFactoryWithDefault [(c, false)] [] (Rng.fresh mix 0)).2) 1 ≠
      sampleSeq (mkSignatureVectorFactory [(c, false)] []
        (Rng.fresh mix 0)) 1 := by
  have hshared : (mkFactoryWithDefault [(c, false)] [] (Rng.fresh mix 0)).2 =
      (c (Rng.fresh mix 0)).2 := by
    rw [mkFactoryWithDefault, mkFactory_single_fixed]
  rw [hshared, mkFactory_single_fixed, mkFactory_single_fixed]
  constructor
  · intro h
    simp only [List.cons.injEq, Option.some.injEq, and_true] at h
    exact hdiff h
  · intro h
    simp only [sampleSeq, sampleSignatureVector, resampleFree] at h
    simp only [List.cons.injEq, Option.some.injEq, GenSignatureVector.mk.injEq,
      and_true] at h
    exact hdiff h

/-- C10 witness: with the camera-seed attribute class and a concrete output
function, the second default-constructed factory holds a different fixed slot
value than a factory constructed alone from a fresh `Random(0)`. -/
theorem default_rng_shared_across_factories_witness :
    (mkSignatureVectorFactory [(cameraSeedSampler, false)] []
        (mkFactoryWithDefault [(cameraSeedSampler, false)] []
          (Rng.fresh mixLCG 0)).2).list_fixed_variant_attributes ≠
      (mkSignatureVectorFactory [(cameraSeedSampler, false)] []
        (Rng.fresh mixLCG 0)).list_fixed_variant_attributes :=
  (default_rng_shared_across_factories cameraSeedSampler mixLCG
    (by decide)).1

theorem sampleK_spec {α : Type} :
    ∀ (k : Nat) (pop : List α) (rng : Rng), k ≤ pop.length →
      ∃ sel rng2, sampleK pop rng k = some (sel, rng2)
        ∧ sel.length = k ∧ (∀ x ∈ sel, x ∈ pop)
        ∧ (pop.Nodup → sel.Nodup) := by
  intro k
  induction k with
  | zero =>
    intro pop rng _
    exact ⟨[], rng, rfl, rfl, by simp, fun _ => List.nodup_nil⟩
  | succ n ih =>
    intro pop rng hk
    have hpos : 0 < pop.length := by omega
    have hlen : n ≤ (pop.eraseIdx ((rng.next).1 % pop.length)).length := by
      have := List.length_eraseIdx_add_one
        (l := pop) (i := (rng.next).1 % pop.length) (Nat.mod_lt _ hpos)
      omega
    obtain ⟨rest, rng2, hrec, hrl, hsub, hnd⟩ :=
      ih (pop.eraseIdx ((rng.next).1 % pop.length)) (rng.next).2 hlen
    refine ⟨pop.get ⟨(rng.next).1 % pop.length, Nat.mod_lt _ hpos⟩ :: rest,
      rng2, ?_, by simp [hrl], ?_, ?_⟩
    · simp only [sampleK, dif_pos hpos]
      rw [hrec]
    · intro x hx
      rcases List.mem_cons.mp hx with h | h
      · rw [h]; exact List.get_mem _ _ _
      · exact List.eraseIdx_subset _ _ (hsub x h)
    · intro hnodup
      refine List.nodup_cons.mpr ⟨?_, hnd (hnodup.eraseIdx _)⟩
      intro hmem
      obtain ⟨i, hi, hne, hieq⟩ :=
        List.mem_eraseIdx_iff_getElem.mp (hsub _ hmem)
      exact hne ((hnodup.getElem_inj_iff).mp hieq)

theorem randints_length (rng : Rng) (n a b : Nat) :
    (randints rng n a b).1.length = n := by
  induction n generalizing rng with
  | zero => rfl
  | succ k ih =>
    simp only [randints]
    rcases h : rng.randint a b with ⟨v, rng1⟩
    rcases h2 : randints rng1 k a b with ⟨rest, rng2⟩
    have := ih rng1
    rw [h2] at this
    simpa using this

theorem map_range_getD {α : Type} (l : List α) (d : α) :
    (List.range l.length).map (fun i => l.getD i d) = l := by
  apply List.ext_getElem
  · simp
  · intro i h1 h2
    have hi : i < l.length := by simpa using h2
    rw [List.getElem_map, List.getElem_range, List.getD_eq_getElem l d hi]

theorem choice_spec {α : Type} (rng : Rng) (l : List α) (h : l ≠ []) :
    ∃ x rng2, Rng.choice rng l = some (x, rng2) ∧ x ∈ l := by
  have hpos : 0 < l.length := List.length_pos.mpr h
  exact ⟨l.get ⟨(rng.next).1 % l.length, Nat.mod_lt _ hpos⟩, (rng.next).2,
    by simp only [Rng.choice, dif_pos hpos], List.get_mem _ _ _⟩

/-- C2: one `get_batch_of_signature_vectors(batch_size=B)` call (with a
duplicate-free HDRI listing of at least `B` entries and a non-empty scene
listing) returns exactly `B` left/right pairs whose HDRI names are pairwise
distinct across pairs, whose left members all share one scene id and one
camera seed, whose right members all share one scene id and one camera seed,
and whose two members agree on the HDRI name and rotation offset. -/
theorem image_image_batch_pairing (rng : Rng)
    (available_scenes available_hdris : List String) (B : Nat)
    (hnodup : available_hdris.Nodup) (hB : B ≤ available_hdris.length)
    (hscenes : available_scenes ≠ []) :
    ∃ batch rng6,
      get_batch_of_signature_vectors rng available_scenes available_hdris B =
        some (batch, rng6)
      ∧ batch.length = B
      ∧ (batch.map (fun p => p.1.get_hdri_name)).Nodup
      ∧ (∀ p ∈ batch, ∀ q ∈ batch,
          p.1.invariant_scene = q.1.invariant_scene ∧
          p.1.invariant_camera = q.1.invariant_camera ∧
          p.2.invariant_scene = q.2.invariant_scene ∧
          p.2.invariant_camera = q.2.invariant_camera)
      ∧ (∀ p ∈ batch, p.1.variant_hdri = p.2.variant_hdri) := by
  obtain ⟨sel, rng1, hsample, hsl, _, hsnd⟩ := sampleK_spec B available_hdris rng hB
  rcases hrot : randints rng1 B 0 360 with ⟨rotations, rng2⟩
  obtain ⟨sceneL, rng3, hchoiceL, _⟩ := choice_spec rng2 available_scenes hscenes
  obtain ⟨sceneR, rng4, hchoiceR, _⟩ := choice_spec rng3 available_scenes hscenes
  simp only [get_batch_of_signature_vectors, hsample, hrot, hchoiceL, hchoiceR]
  refine ⟨_, _, rfl, by simp, ?_, ?_, ?_⟩
  · rw [List.map_map]
    have hcomp :
        ((fun p : ImageImageSignatureVector × ImageImageSignatureVector =>
            p.1.get_hdri_name) ∘
          (buildPair sel rotations sceneL sceneR
            (rng4.randint 0 1000000).1
            ((rng4.randint 0 1000000).2.randint 0 1000000).1)) =
          fun i => sel.getD i "" := rfl
    rw [hcomp, ← hsl, map_range_getD]
    exact hsnd hnodup
  · intro p hp q hq
    obtain ⟨i, _, hpi⟩ := List.mem_map.mp hp
    obtain ⟨j, _, hqj⟩ := List.mem_map.mp hq
    rw [← hpi, ← hqj]
    exact ⟨rfl, rfl, rfl, rfl⟩
  · intro p hp
    obtain ⟨i, _, hpi⟩ := List.mem_map.mp hp
    rw [← hpi]
    rfl

/-- C2 witness: a concrete batch of size 2. -/
theorem image_image_batch_pairing_witness :
    ∃ batch rng6,
      get_batch_of_signature_vectors (Rng.fresh mixLCG 0) ["s.blend"]
        ["h1", "h2", "h3"] 2 = some (batch, rng6)
      ∧ batch.length = 2
      ∧ (batch.map (fun p => p.1.get_hdri_name)).Nodup
      ∧ (∀ p ∈ batch, ∀ q ∈ batch,
          p.1.invariant_scene = q.1.invariant_scene ∧
          p.1.invariant_camera = q.1.invariant_camera ∧
          p.2.invariant_scene = q.2.invariant_scene ∧
          p.2.invariant_camera = q.2.invariant_camera)
      ∧ (∀ p ∈ batch, p.1.variant_hdri = p.2.variant_hdri) :=
  image_image_batch_pairing (Rng.fresh mixLCG 0) ["s.blend"]
    ["h1", "h2", "h3"] 2 (by decide) (by decide) (by decide)

theorem scanPairs_paths (dataRoot : String) (fs : List String) :
    ∀ (pairs : List (ImageImageSignatureVector × ImageImageSignatureVector))
      (groups : List (String × List (ImageImageSignatureVector × String))),
      (scanPairs dataRoot fs pairs groups).1 =
        pairs.map (fun pr => computePath dataRoot pr.1)
      ∧ (scanPairs dataRoot fs pairs groups).2.1 =
        pairs.map (fun pr => computePath dataRoot pr.2) := by
  intro pairs
  induction pairs with
  | nil => intro groups; exact ⟨rfl, rfl⟩
  | cons pr rest ih =>
    intro groups
    rcases pr with ⟨svl, svr⟩
    simp only [scanPairs, List.map_cons]
    exact ⟨congrArg _ (ih _).1, congrArg _ (ih _).2⟩

theorem addToGroup_inv (P : ImageImageSignatureVector × String → Prop) :
    ∀ (groups : List (String × List (ImageImageSignatureVector × String)))
      (scene : String) (item : ImageImageSignatureVector × String),
      (∀ g ∈ groups, ∀ it ∈ g.2, P it) → P item →
      ∀ g ∈ addToGroup groups scene item, ∀ it ∈ g.2, P it := by
  intro groups
  induction groups with
  | nil =>
    intro scene item _ hitem g hg it hit
    simp only [addToGroup, List.mem_singleton] at hg
    subst hg
    simp only [List.mem_singleton] at hit
    subst hit
    exact hitem
  | cons hd rest ih =>
    intro scene item hall hitem g hg it hit
    rcases hd with ⟨k, items⟩
    by_cases hk : k = scene
    · simp only [addToGroup, if_pos hk, List.mem_cons] at hg
      rcases hg with hg | hg
      · subst hg
        rcases List.mem_append.mp hit with h | h
        · exact hall (k, items) (by simp) it h
        · simp only [List.mem_singleton] at h
          subst h
          exact hitem
      · exact hall g (by simp [hg]) it hit
    · simp only [addToGroup, if_neg hk, List.mem_cons] at hg
      rcases hg with hg | hg
      · subst hg
        exact hall (k, items) (by simp) it hit
      · exact ih scene item (fun g2 hg2 => hall g2 (by simp [hg2])) hitem g hg it hit

theorem scanPairs_groups_inv (dataRoot : String) (fs : List String) :
    ∀ (pairs : List (ImageImageSignatureVector × ImageImageSignatureVector))
      (groups : List (String × List (ImageImageSignatureVector × String))),
      (∀ g ∈ groups, ∀ it ∈ g.2,
        it.2 = computePath dataRoot it.1 ∧ it.2 ∉ fs) →
      ∀ g ∈ (scanPairs dataRoot fs pairs groups).2.2, ∀ it ∈ g.2,
        it.2 = computePath dataRoot it.1 ∧ it.2 ∉ fs := by
  intro pairs
  induction pairs with
  | nil => intro groups hinv; exact hinv
  | cons pr rest ih =>
    intro groups hinv
    rcases pr with ⟨svl, svr⟩
    simp only [scanPairs]
    apply ih
    have h1 : ∀ g ∈ (if computePath dataRoot svl ∈ fs then groups
        else addToGroup groups svl.get_scene_id (svl, computePath dataRoot svl)),
        ∀ it ∈ g.2, it.2 = computePath dataRoot it.1 ∧ it.2 ∉ fs := by
      by_cases hl : computePath dataRoot svl ∈ fs
      · rw [if_pos hl]; exact hinv
      · rw [if_neg hl]
        exact addToGroup_inv _ groups _ _ hinv ⟨rfl, hl⟩
    by_cases hr : computePath dataRoot svr ∈ fs
    · rw [if_pos hr]; exact h1
    · rw [if_neg hr]
      exact addToGroup_inv _ _ _ _ h1 ⟨rfl, hr⟩

theorem lookup_mem {α β : Type} [BEq α] [LawfulBEq α] :
    ∀ (l : List (α × β)) (s : α) (b : β),
      l.lookup s = some b → (s, b) ∈ l := by
  intro l
  induction l with
  | nil => intro s b h; simp [List.lookup] at h
  | cons hd rest ih =>
    intro s b h
    rcases hd with ⟨k, v⟩
    rw [List.lookup_cons] at h
    by_cases hk : s == k
    · simp only [hk] at h
      have hsk : s = k := eq_of_beq hk
      cases h
      rw [hsk]
      exact List.mem_cons_self _ _
    · have : (s == k) = false := by
        cases hbe : s == k
        · rfl
        · exact absurd hbe hk
      rw [this] at h
      exact List.mem_cons_of_mem _ (ih s b h)

theorem lookup_of_mem_nodupkeys {α β : Type} [BEq α] [LawfulBEq α] :
    ∀ (l : List (α × β)) (s : α) (b : β),
      (l.map Prod.fst).Nodup → (s, b) ∈ l → l.lookup s = some b := by
  intro l
  induction l with
  | nil => intro s b _ h; simp at h
  | cons hd rest ih =>
    intro s b hnd hmem
    rcases hd with ⟨k, v⟩
    rw [List.map_cons, List.nodup_cons] at hnd
    rw [List.lookup_cons]
    rcases List.mem_cons.mp hmem with h | h
    · cases h
      simp
    · have hne : (s == k) = false := by
        cases hbe : s == k
        · rfl
        · exfalso
          have hsk : s = k := eq_of_beq hbe
          apply hnd.1
          rw [← hsk]
          exact List.mem_map.mpr ⟨(s, b), h, rfl⟩
      rw [hne]
      exact ih s b hnd.2 h

/-- C4: `get_batch_of_images_given_signature_vectors` never hands the render
backend (`do_render` or `do_render_batch_for_scene`) a signature vector whose
computed output path already exists on the filesystem at the start of the
call, for either task method and any shard configuration; moreover every
output path passed along is the vector's computed path. -/
theorem no_render_for_existing_path (hash : String → Nat) (dataRoot : String)
    (fs : List String)
    (pairs : List (ImageImageSignatureVector × ImageImageSignatureVector))
    (shard_index shard_count : Nat) (task_method : String)
    (sv : ImageImageSignatureVector) (p : String)
    (hmem : (sv, p) ∈ renderInvocations hash dataRoot fs pairs
      shard_index shard_count task_method) :
    computePath dataRoot sv ∉ fs ∧ p = computePath dataRoot sv := by
  have hinv := scanPairs_groups_inv dataRoot fs pairs [] (by simp)
  by_cases hm1 : task_method = "split_by_scene"
  · subst hm1
    simp only [renderInvocations, get_batch_of_images_given_signature_vectors,
      String.reduceEq, reduceIte] at hmem
    obtain ⟨s, _, hsp⟩ := List.mem_flatMap.mp hmem
    cases hl : ((scanPairs dataRoot fs pairs []).2.2).lookup s with
    | none => rw [hl] at hsp; simp at hsp
    | some l =>
      rw [hl] at hsp
      simp only [Option.getD_some] at hsp
      have hit := hinv (s, l) (lookup_mem _ _ _ hl) (sv, p) hsp
      exact ⟨hit.1 ▸ hit.2, hit.1⟩
  · by_cases hm2 : task_method = "individual"
    · subst hm2
      simp only [renderInvocations, get_batch_of_images_given_signature_vectors,
        String.reduceEq, reduceIte] at hmem
      obtain ⟨path, hpath, hsome⟩ := List.mem_filterMap.mp hmem
      obtain ⟨it, hit, heq⟩ := Option.map_eq_some'.mp hsome
      have hsv : sv = it.1 := by
        have := congrArg Prod.fst heq
        exact this.symm
      have hp : p = path := by
        have := congrArg Prod.snd heq
        exact this.symm
      have hitmem : it ∈ (scanPairs dataRoot fs pairs []).2.2.flatMap (·.2) :=
        List.get?_mem hit
      obtain ⟨g, hg, hitg⟩ := List.mem_flatMap.mp hitmem
      have hP := hinv g hg it hitg
      have hpathmem : path ∈
          ((scanPairs dataRoot fs pairs []).2.2.flatMap (·.2)).map (·.2) := by
        rw [run_task_loop_eq] at hpath
        exact (List.filter_sublist _).subset
          ((List.takeWhile_sublist _).subset hpath)
      have hidxlt : List.indexOf path
            (((scanPairs dataRoot fs pairs []).2.2.flatMap (·.2)).map (·.2)) <
          (((scanPairs dataRoot fs pairs []).2.2.flatMap (·.2)).map (·.2)).length :=
        List.indexOf_lt_length.mpr hpathmem
      have hidxlt2 : List.indexOf path
            (((scanPairs dataRoot fs pairs []).2.2.flatMap (·.2)).map (·.2)) <
          ((scanPairs dataRoot fs pairs []).2.2.flatMap (·.2)).length := by
        simpa using hidxlt
      have hitval : it = ((scanPairs dataRoot fs pairs []).2.2.flatMap (·.2)).get
          ⟨_, hidxlt2⟩ := by
        rw [List.get?_eq_get hidxlt2] at hit
        exact (Option.some.injEq _ _ ▸ hit).symm
      have hmapget := List.getElem_map (fun x :
          ImageImageSignatureVector × String => x.2)
        (l := (scanPairs dataRoot fs pairs []).2.2.flatMap (·.2))
        (n := List.indexOf path
          (((scanPairs dataRoot fs pairs []).2.2.flatMap (·.2)).map (·.2)))
        (h := hidxlt)
      have hsnd : it.2 = path := by
        rw [hitval, List.get_eq_getElem]
        exact hmapget.symm.trans (List.getElem_indexOf hidxlt)
      constructor
      · rw [hsv, ← hP.1]
        exact hP.2
      · rw [hp, hsv, ← hP.1, ← hsnd]
    · simp only [renderInvocations, get_batch_of_images_given_signature_vectors] at hmem
      rw [if_neg hm1, if_neg hm2] at hmem
      simp at hmem

/-- C4 witness: a concrete call in which one missing pair is rendered. -/
theorem no_render_for_existing_path_witness :
    computePath "" (⟨⟨"h", 5⟩, ⟨"a.blend"⟩, ⟨7⟩⟩ : ImageImageSignatureVector)
        ∉ ["/other.png"]
    ∧ "/renders/h/hdri-offset_5_camera_7_a.png" =
        computePath ""
          (⟨⟨"h", 5⟩, ⟨"a.blend"⟩, ⟨7⟩⟩ : ImageImageSignatureVector) :=
  no_render_for_existing_path (fun s => s.length) "" ["/other.png"]
    [((⟨⟨"h", 5⟩, ⟨"a.blend"⟩, ⟨7⟩⟩ : ImageImageSignatureVector),
      (⟨⟨"h", 5⟩, ⟨"a.blend"⟩, ⟨7⟩⟩ : ImageImageSignatureVector))]
    0 1 "split_by_scene"
    (⟨⟨"h", 5⟩, ⟨"a.blend"⟩, ⟨7⟩⟩ : ImageImageSignatureVector)
    "/renders/h/hdri-offset_5_camera_7_a.png" (by decide)

/-- C5: for every input list of pairs and every shard configuration, the
`split_by_scene` and `individual` task methods return the same list of
(left path, right path) tuples — the computed paths of the input pairs, in
input order. -/
theorem split_and_individual_return_same_paths (hash : String → Nat)
    (dataRoot : String) (fs : List String)
    (pairs : List (ImageImageSignatureVector × ImageImageSignatureVector))
    (shard_index shard_count : Nat) :
    ∃ renders_split renders_individual,
      get_batch_of_images_given_signature_vectors hash dataRoot fs pairs
          shard_index shard_count "split_by_scene" =
        .ok (pairs.map (fun pr =>
          (computePath dataRoot pr.1, computePath dataRoot pr.2)), renders_split)
      ∧ get_batch_of_images_given_signature_vectors hash dataRoot fs pairs
          shard_index shard_count "individual" =
        .ok (pairs.map (fun pr =>
          (computePath dataRoot pr.1, computePath dataRoot pr.2)), renders_individual) := by
  have hzip : (scanPairs dataRoot fs pairs []).1.zip
      (scanPairs dataRoot fs pairs []).2.1 =
      pairs.map (fun pr =>
        (computePath dataRoot pr.1, computePath dataRoot pr.2)) := by
    rw [(scanPairs_paths dataRoot fs pairs []).1,
      (scanPairs_paths dataRoot fs pairs []).2, List.zip_map']
  have h1 : ∃ renders_split,
      get_batch_of_images_given_signature_vectors hash dataRoot fs pairs
          shard_index shard_count "split_by_scene" =
        .ok (pairs.map (fun pr =>
          (computePath dataRoot pr.1, computePath dataRoot pr.2)), renders_split) := by
    simp only [get_batch_of_images_given_signature_vectors, String.reduceEq,
      reduceIte, hzip]
    exact ⟨_, rfl⟩
  have h2 : ∃ renders_individual,
      get_batch_of_images_given_signature_vectors hash dataRoot fs pairs
          shard_index shard_count "individual" =
        .ok (pairs.map (fun pr =>
          (computePath dataRoot pr.1, computePath dataRoot pr.2)), renders_individual) := by
    simp only [get_batch_of_images_given_signature_vectors, String.reduceEq,
      reduceIte, hzip]
    exact ⟨_, rfl⟩
  obtain ⟨r1, h1⟩ := h1
  obtain ⟨r2, h2⟩ := h2
  exact ⟨r1, r2, h1, h2⟩

/-- C7 counterexample: the claim says the path carries the scene id "with any
'.blend' suffix stripped", but `str.replace('.blend', '')` removes every
occurrence; for the scene id `"a.blendb"` (no `.blend` suffix, one interior
occurrence) the code's path carries `"ab"` while the spec-worded form carries
`"a.blendb"`. -/
theorem computePath_not_suffix_strip :
    computePath "/data"
        (⟨⟨"h", 5⟩, ⟨"a.blendb"⟩, ⟨7⟩⟩ : ImageImageSignatureVector) ≠
      specFormPath "/data"
        (⟨⟨"h", 5⟩, ⟨"a.blendb"⟩, ⟨7⟩⟩ : ImageImageSignatureVector) := by
  decide

/-- C7 (amended): the output path is a pure deterministic function of the
field values and the data root — two independently constructed signature
vectors with equal field values yield the identical path — and it has the
form `<data_root>/renders/<hdri_name>/hdri-offset_<rot>_camera_<seed>_<scene_id>.png`
with every occurrence of `'.blend'` removed from the scene id; no random or
time-dependent input enters it. -/
theorem output_path_pure_function (dataRoot n : String) (rot : Int)
    (sd : Nat) (scene : String) :
    computePath dataRoot
        (⟨⟨n, rot⟩, ⟨scene⟩, ⟨sd⟩⟩ : ImageImageSignatureVector) =
      dataRoot ++ "/renders/" ++ n ++ "/hdri-offset_" ++ toString rot ++
        "_camera_" ++ toString sd ++ "_" ++ pyReplace scene ".blend" "" ++ ".png"
    ∧ ∀ sv1 sv2 : ImageImageSignatureVector,
        sv1.variant_hdri = sv2.variant_hdri →
        sv1.invariant_scene = sv2.invariant_scene →
        sv1.invariant_camera = sv2.invariant_camera →
        computePath dataRoot sv1 = computePath dataRoot sv2 := by
  refine ⟨rfl, ?_⟩
  intro sv1 sv2 h1 h2 h3
  cases sv1
  cases sv2
  cases h1
  cases h2
  cases h3
  rfl

/-- C7 witness: the pure path function at a concrete vector, and path
equality for two equal-field constructions. -/
theorem output_path_pure_function_witness :
    computePath "/d"
        (⟨⟨"h", 5⟩, ⟨"a.blend"⟩, ⟨7⟩⟩ : ImageImageSignatureVector) =
      "/d/renders/h/hdri-offset_5_camera_7_a.png"
    ∧ computePath "/d"
        (⟨⟨"h", 5⟩, ⟨"a.blend"⟩, ⟨7⟩⟩ : ImageImageSignatureVector) =
      computePath "/d"
        (⟨⟨"h", 5⟩, ⟨"a.blend"⟩, ⟨7⟩⟩ : ImageImageSignatureVector) :=
  ⟨((output_path_pure_function "/d" "h" 5 7 "a.blend").1).trans (by decide),
    (output_path_pure_function "/d" "h" 5 7 "a.blend").2
      (⟨⟨"h", 5⟩, ⟨"a.blend"⟩, ⟨7⟩⟩ : ImageImageSignatureVector)
      (⟨⟨"h", 5⟩, ⟨"a.blend"⟩, ⟨7⟩⟩ : ImageImageSignatureVector)
      rfl rfl rfl⟩

/-- C9: `temporary_payload_file` creates the payload file before the body
(the subprocess spawn) runs — the filesystem the body receives contains the
yielded path — and on every exit path (the body returning a value or raising)
the file is no longer present afterwards; the caller sees exactly the body's
result, and a cleanup that finds the file already removed logs the warning
instead of raising. -/
theorem temp_payload_file_lifecycle (α : Type) (fs : List String)
    (path : String)
    (body : String → List String → Except String α × List String) :
    path ∈ fsWithPayload path fs
    ∧ (temporary_payload_file fs path body).result =
        (body path (fsWithPayload path fs)).1
    ∧ path ∉ (temporary_payload_file fs path body).fs
    ∧ (temporary_payload_file fs path body).warnings =
        (if path ∈ (body path (fsWithPayload path fs)).2 then []
         else [tempPayloadWarning path]) := by
  refine ⟨List.mem_cons_self _ _, ?_, ?_, ?_⟩
  · by_cases hmem : path ∈ (body path (fsWithPayload path fs)).2 <;>
      simp [temporary_payload_file, hmem]
  · by_cases hmem : path ∈ (body path (fsWithPayload path fs)).2
    · simp only [temporary_payload_file, if_pos hmem]
      intro hcontra
      have := (List.mem_filter.mp hcontra).2
      simp at this
    · simp only [temporary_payload_file, if_neg hmem]
      exact hmem
  · by_cases hmem : path ∈ (body path (fsWithPayload path fs)).2 <;>
      simp [temporary_payload_file, hmem]

theorem uniform_ok {M : Type} (members : List M) (u : ℚ)
    (hne : members ≠ []) (h0 : 0 ≤ u) (h1 : u < 1) :
    ∃ m, members.get? (Int.toNat ⌊u * (members.length : ℚ)⌋) = some m
      ∧ m ∈ members := by
  have hpos : 0 < members.length := List.length_pos.mpr hne
  have hq : (0 : ℚ) < (members.length : ℚ) := by exact_mod_cast hpos
  have hlt : u * (members.length : ℚ) < (members.length : ℚ) := by
    calc u * (members.length : ℚ) < 1 * (members.length : ℚ) :=
          mul_lt_mul_of_pos_right h1 hq
    _ = (members.length : ℚ) := one_mul _
  have hflt : ⌊u * (members.length : ℚ)⌋ < (members.length : Int) :=
    Int.floor_lt.mpr (by exact_mod_cast hlt)
  have hfnn : 0 ≤ ⌊u * (members.length : ℚ)⌋ :=
    Int.floor_nonneg.mpr (mul_nonneg h0 hq.le)
  have hidx : Int.toNat ⌊u * (members.length : ℚ)⌋ < members.length := by
    omega
  exact ⟨members.get ⟨_, hidx⟩, List.get?_eq_get hidx, List.get_mem _ _ _⟩

theorem aligned_any_neg_iff {M : Type} [DecidableEq M] (members : List M)
    (ws : List (M × ℚ)) (hks : (ws.map Prod.fst).Nodup)
    (hkm : ∀ mq ∈ ws, mq.1 ∈ members) :
    ((alignedWeightsOf members ws).any (fun w => decide (w < 0)) = true ↔
      ∃ mq ∈ ws, mq.2 < 0) := by
  rw [List.any_eq_true]
  constructor
  · rintro ⟨w, hw, hwneg⟩
    rw [decide_eq_true_eq] at hwneg
    obtain ⟨m, _, hmw⟩ := List.mem_map.mp hw
    cases hl : ws.lookup m with
    | none =>
      rw [hl] at hmw
      simp only [Option.getD_none] at hmw
      rw [← hmw] at hwneg
      norm_num at hwneg
    | some q =>
      rw [hl] at hmw
      simp only [Option.getD_some] at hmw
      exact ⟨(m, q), lookup_mem ws m q hl, by rw [hmw]; exact hwneg⟩
  · rintro ⟨⟨m, q⟩, hmq, hqneg⟩
    refine ⟨(ws.lookup m).getD 1, List.mem_map.mpr ⟨m, hkm _ hmq, rfl⟩, ?_⟩
    rw [lookup_of_mem_nodupkeys ws m q hks hmq]
    simpa using hqneg

theorem aligned_all_zero_iff {M : Type} [DecidableEq M] (members : List M)
    (ws : List (M × ℚ)) :
    ((alignedWeightsOf members ws).all (fun w => decide (w = 0)) = true ↔
      ∀ m ∈ members, ((ws.lookup m).getD 1 : ℚ) = 0) := by
  rw [List.all_eq_true]
  constructor
  · intro h m hm
    have := h _ (List.mem_map.mpr ⟨m, hm, rfl⟩)
    simpa using this
  · rintro h w hw
    obtain ⟨m, hm, hmw⟩ := List.mem_map.mp hw
    rw [← hmw]
    simpa using h m hm

theorem weighted_sample_error_iff {M : Type} [DecidableEq M]
    (members : List M) (weights : Option (List (M × ℚ))) (u : ℚ)
    (h0 : 0 ≤ u) (h1 : u < 1)
    (hks : ((weights.getD []).map Prod.fst).Nodup)
    (hkm : ∀ mq ∈ weights.getD [], mq.1 ∈ members) :
    ((∃ e, weighted_sample members weights u = .error e) ↔
      (members = [] ∨ (∃ mq ∈ weights.getD [], mq.2 < 0) ∨
        ∀ m ∈ members, (((weights.getD []).lookup m).getD 1 : ℚ) = 0))
    ∧ ((∀ e, weighted_sample members weights u ≠ .error e) →
        ∃ m ∈ members, weighted_sample members weights u = .ok m) := by
  by_cases hne : members = []
  · subst hne
    have hres : weighted_sample ([] : List M) weights u =
        .error "Enum has no members to sample." := rfl
    refine ⟨⟨fun _ => Or.inl rfl, fun _ => ⟨_, hres⟩⟩, fun hno => ?_⟩
    exact absurd hres (hno _)
  · have hnemp : members.isEmpty = false := by
      cases members with
      | nil => exact absurd rfl hne
      | cons a l => exact List.isEmpty_cons
    have hone : ∃ m0, m0 ∈ members := List.exists_mem_of_ne_nil members hne
    -- the uniform branch value, shared by the no-weights and empty-dict cases
    obtain ⟨mu, hmu, hmumem⟩ := uniform_ok members u hne h0 h1
    have hnotzero_default :
        ¬(∀ m ∈ members, ((List.lookup m ([] : List (M × ℚ))).getD 1 : ℚ) = 0) := by
      intro hz
      obtain ⟨m0, hm0⟩ := hone
      have := hz m0 hm0
      rw [List.lookup_nil] at this
      simp only [Option.getD_none] at this
      norm_num at this
    cases weights with
    | none =>
      have hres : weighted_sample members none u = .ok mu := by
        simp only [weighted_sample, hnemp, Bool.false_eq_true, if_false, hmu]
      refine ⟨⟨?_, ?_⟩, fun _ => ⟨mu, hmumem, hres⟩⟩
      · rintro ⟨e, he⟩
        rw [hres] at he
        exact absurd he (by simp)
      · rintro (h | ⟨mq, hmq, _⟩ | hz)
        · exact absurd h hne
        · simp only [Option.getD_none] at hmq
          simp at hmq
        · exact absurd (by simpa using hz) hnotzero_default
    | some ws =>
      by_cases hwe : ws = []
      · subst hwe
        have hres : weighted_sample members (some []) u = .ok mu := by
          simp only [weighted_sample, hnemp, Bool.false_eq_true, if_false,
            List.isEmpty_nil, if_true, hmu]
        refine ⟨⟨?_, ?_⟩, fun _ => ⟨mu, hmumem, hres⟩⟩
        · rintro ⟨e, he⟩
          rw [hres] at he
          exact absurd he (by simp)
        · rintro (h | ⟨mq, hmq, _⟩ | hz)
          · exact absurd h hne
          · simp only [Option.getD_some] at hmq
            simp at hmq
          · exact absurd (by simpa using hz) hnotzero_default
      · have hwemp : ws.isEmpty = false := by
          cases ws with
          | nil => exact absurd rfl hwe
          | cons a l => exact List.isEmpty_cons
        simp only [Option.getD_some] at hks hkm
        by_cases hany : (alignedWeightsOf members ws).any
            (fun w => decide (w < 0)) = true
        · have hres : weighted_sample members (some ws) u =
              .error "Weight must be non-negative." := by
            simp only [weighted_sample, hnemp, Bool.false_eq_true, if_false,
              hwemp, hany, if_true]
          refine ⟨⟨fun _ => ?_, fun _ => ⟨_, hres⟩⟩, fun hno => ?_⟩
          · exact Or.inr (Or.inl (by
              simpa using (aligned_any_neg_iff members ws hks hkm).mp hany))
          · exact absurd hres (hno _)
        · have hanyf : (alignedWeightsOf members ws).any
              (fun w => decide (w < 0)) = false := by
            cases hx : (alignedWeightsOf members ws).any
                (fun w => decide (w < 0))
            · rfl
            · exact absurd hx hany
          by_cases hall : (alignedWeightsOf members ws).all
              (fun w => decide (w = 0)) = true
          · have hres : weighted_sample members (some ws) u =
                .error "All sampling weights are zero." := by
              simp only [weighted_sample, hnemp, Bool.false_eq_true, if_false,
                hwemp, hanyf, hall, if_true]
            refine ⟨⟨fun _ => ?_, fun _ => ⟨_, hres⟩⟩, fun hno => ?_⟩
            · exact Or.inr (Or.inr (by
                simpa using (aligned_all_zero_iff members ws).mp hall))
            · exact absurd hres (hno _)
          · have hallf : (alignedWeightsOf members ws).all
                (fun w => decide (w = 0)) = false := by
              cases hx : (alignedWeightsOf members ws).all
                  (fun w => decide (w = 0))
              · rfl
              · exact absurd hx hall
            have hpos : 0 < members.length := List.length_pos.mpr hne
            have hidx : min (bisectCount
                  (u * (alignedWeightsOf members ws).sum)
                  (cumulativeSums (alignedWeightsOf members ws)))
                (members.length - 1) < members.length :=
              Nat.lt_of_le_of_lt (Nat.min_le_right _ _)
                (Nat.sub_lt hpos Nat.one_pos)
            have hres : weighted_sample members (some ws) u =
                .ok (members.get ⟨_, hidx⟩) := by
              simp only [weighted_sample, hnemp, Bool.false_eq_true, if_false,
                hwemp, hanyf, hallf, List.get?_eq_get hidx]
            refine ⟨⟨?_, ?_⟩, fun _ => ⟨_, List.get_mem _ _ _, hres⟩⟩
            · rintro ⟨e, he⟩
              rw [hres] at he
              exact absurd he (by simp)
            · rintro (h | hneg | hz)
              · exact absurd h hne
              · have := (aligned_any_neg_iff members ws hks hkm).mpr
                  (by simpa using hneg)
                rw [hanyf] at this
                exact absurd this (by simp)
              · have := (aligned_all_zero_iff members ws).mpr
                  (by simpa using hz)
                rw [hallf] at this
                exact absurd this (by simp)

theorem weighted_sample_scenario (u : ℚ) (h0 : 0 ≤ u) (h1 : u < 1) :
    weighted_sample ABC.members
      (some [(ABC.A, 0), (ABC.B, 1), (ABC.C, 0)]) u = .ok ABC.B := by
  have haligned : alignedWeightsOf [ABC.A, ABC.B, ABC.C]
      [(ABC.A, (0 : ℚ)), (ABC.B, 1), (ABC.C, 0)] = [0, 1, 0] := by decide
  have hanyf : (([0, 1, 0] : List ℚ).any (fun w => decide (w < 0))) = false := by
    decide
  have hallf : (([0, 1, 0] : List ℚ).all (fun w => decide (w = 0))) = false := by
    decide
  have hsum : (([0, 1, 0] : List ℚ).sum) = 1 := by norm_num
  have hcum : cumulativeSums ([0, 1, 0] : List ℚ) = [0, 1, 1] := by
    norm_num [cumulativeSums]
  have hbc : bisectCount u [0, 1, 1] = 1 := by
    simp only [bisectCount, if_pos h0, if_neg (not_le.mpr h1)]
  simp only [weighted_sample, ABC.members, List.isEmpty_cons,
    Bool.false_eq_true, if_false, haligned, hanyf, hallf, hsum, hcum, mul_one,
    hbc]
  rfl

/-- C8: enum-attribute weighted sampling fails with the invalid-weights
errors exactly when the input is invalid — the enum has no members, some
supplied weight is negative, or the aligned weight vector (missing members
defaulting to 1.0) is all zero — and otherwise returns an enum member, never
a silent default; in particular for enum `{A, B, C}` with weights
`{A: 0, B: 1, C: 0}` every sample returns `B`.  (Weights as exact rationals;
`u ∈ [0, 1)` is the underlying uniform draw; dict keys are enum members and
pairwise distinct, as Python's `Dict[E, float]` guarantees.) -/
theorem enum_weighted_sampling_validity :
    (∀ (M : Type) (inst : DecidableEq M) (members : List M)
        (weights : Option (List (M × ℚ))) (u : ℚ),
        0 ≤ u → u < 1 →
        ((weights.getD []).map Prod.fst).Nodup →
        (∀ mq ∈ weights.getD [], mq.1 ∈ members) →
        (((∃ e, weighted_sample members weights u = .error e) ↔
            (members = [] ∨ (∃ mq ∈ weights.getD [], mq.2 < 0) ∨
              ∀ m ∈ members, (((weights.getD []).lookup m).getD 1 : ℚ) = 0))
          ∧ ((∀ e, weighted_sample members weights u ≠ .error e) →
              ∃ m ∈ members, weighted_sample members weights u = .ok m)))
    ∧ (∀ u : ℚ, 0 ≤ u → u < 1 →
        weighted_sample ABC.members
          (some [(ABC.A, 0), (ABC.B, 1), (ABC.C, 0)]) u = .ok ABC.B) :=
  ⟨fun _ _ members weights u h0 h1 hks hkm =>
    weighted_sample_error_iff members weights u h0 h1 hks hkm,
   fun u h0 h1 => weighted_sample_scenario u h0 h1⟩

/-- C8 witness: the `{A: 0, B: 1, C: 0}` scenario at the concrete draw
`u = 1/2`, and the error case for the empty enum. -/
theorem enum_weighted_sampling_validity_witness :
    weighted_sample ABC.members
      (some [(ABC.A, 0), (ABC.B, 1), (ABC.C, 0)]) (1/2) = .ok ABC.B
    ∧ ∃ e, weighted_sample ([] : List ABC) none (1/2) = .error e :=
  ⟨enum_weighted_sampling_validity.2 (1/2) (by norm_num) (by norm_num),
   (enum_weighted_sampling_validity.1 ABC inferInstance [] none (1/2)
      (by norm_num) (by norm_num) (by simp) (by simp)).1.mpr (Or.inl rfl)⟩

end CLD
